import Mathlib

/-!
Shallow embedding of `bnbscraper` (src/src/main.rs), a retail-site scraper:
link discovery from the landing page, per-link product-card extraction,
cross-link deduplication of records, and grouping by discount label.

Modelling conventions:
* Rust `f32` prices are modelled as exact decimals in `ℚ`; `str::parse::<f32>`
  is modelled by `parseDecimal`, the plain-decimal fragment of the Rust float
  grammar (optional sign, digits, optional fractional part) — the parts the
  program's inputs exercise.
* The DOM-query collaborator (`select` crate) is modelled at its interface:
  each `item.find(class.descendant(pred)).next()` query result is an
  `Option Node` field of `Card`; the landing page's anchors are a
  `List Anchor`.
* A Rust `.unwrap()` on a missing attribute (a panic) is modelled as `none`
  of an `Option`-valued function; `Result` values are `Except Unit`.
* `HashSet` collection is modelled by `List.dedup` (set semantics; iteration
  order is irrelevant to every property stated here), and the
  `HashMap<&str, Vec<_>>` grouping by an association list in key-insertion
  order (the map itself is unordered; only each group's content order
  matters).
-/

namespace BnB

/-- The extracted product record (`struct BnBItem`, main.rs lines 17-25).
`#[derive(Default)]` gives empty strings and `0.0` prices. -/
structure BnBItem where
  name : String
  item_type : String
  link : String
  price : ℚ
  price_promo : ℚ
  discount : String
deriving DecidableEq, Repr

/-- The `Default::default()` record: every field at its zero value. -/
def BnBItem.zero : BnBItem :=
  { name := "", item_type := "", link := "", price := 0, price_promo := 0, discount := "" }

/-- Custom `PartialEq for BnBItem` (main.rs lines 27-31): records are equal
when `name` and `item_type` agree, all other fields ignored. -/
def itemEq (a b : BnBItem) : Bool :=
  a.name == b.name && a.item_type == b.item_type

/-- `Vec::contains` under the custom `PartialEq`: some element equals `x`. -/
def containsItem (l : List BnBItem) (x : BnBItem) : Bool :=
  l.any (fun y => itemEq y x)

/-- One step of the dedup-guarded push used both in `main`'s merge loop
(lines 56-60) and in `process_link`'s local loop (lines 92-94):
`if !acc.contains(&x) { acc.push(x) }`. -/
def dedupInsert (acc : List BnBItem) (x : BnBItem) : List BnBItem :=
  if containsItem acc x then acc else acc ++ [x]

/-- The local dedup applied to one link's own extracted records before they
are returned (`products_in_link` loop in `process_link`, lines 87-95). -/
def localDedup (items : List BnBItem) : List BnBItem :=
  items.foldl dedupInsert []

/-- The fan-in loop of `main` (lines 54-62): each task's result arrives as an
`Except`; an `ok` list is merged record-by-record through `dedupInsert`, an
`error` is dropped silently, and the accumulated collection is returned. -/
def crawl (results : List (Except Unit (List BnBItem))) : List BnBItem :=
  results.foldl
    (fun acc res =>
      match res with
      | .ok products => products.foldl dedupInsert acc
      | .error _ => acc)
    []

/-- The payloads of the successful tasks, in arrival order. -/
def successes (results : List (Except Unit (List BnBItem))) : List (List BnBItem) :=
  results.filterMap (fun r => match r with | .ok l => some l | .error _ => none)

/-- Spec-side description of first-occurrence deduplication: keep each record
and drop every later record equal to it under the `(name, item_type)`
identity. -/
def firstOccur : List BnBItem → List BnBItem
  | [] => []
  | x :: xs => x :: firstOccur (xs.filter (fun y => !itemEq x y))
termination_by l => l.length
decreasing_by
  simp only [List.length_cons]
  exact Nat.lt_succ_of_le (List.length_filter_le _ _)

theorem containsItem_append (acc : List BnBItem) (x y : BnBItem) :
    containsItem (acc ++ [x]) y = (containsItem acc y || itemEq x y) := by
  simp [containsItem, List.any_append]

theorem foldl_dedupInsert_eq (l : List BnBItem) : ∀ acc : List BnBItem,
    l.foldl dedupInsert acc = acc ++ firstOccur (l.filter (fun y => !containsItem acc y)) := by
  induction l with
  | nil => intro acc; simp [firstOccur]
  | cons x xs ih =>
    intro acc
    by_cases hx : containsItem acc x
    · rw [List.foldl_cons, dedupInsert, if_pos hx, ih acc]
      simp [hx]
    · rw [List.foldl_cons, dedupInsert, if_neg hx, ih (acc ++ [x])]
      have hfilter : xs.filter (fun y => !containsItem (acc ++ [x]) y)
          = (xs.filter (fun y => !containsItem acc y)).filter (fun y => !itemEq x y) := by
        rw [List.filter_filter]
        apply List.filter_congr
        intro y _
        rw [containsItem_append]
        cases containsItem acc y <;> cases itemEq x y <;> rfl
      rw [hfilter]
      simp [hx, firstOccur]

theorem crawl_eq_foldl (results : List (Except Unit (List BnBItem))) :
    crawl results = (successes results).flatten.foldl dedupInsert [] := by
  rw [crawl]
  have h : ∀ acc : List BnBItem, results.foldl
      (fun acc res =>
        match res with
        | .ok products => products.foldl dedupInsert acc
        | .error _ => acc)
      acc = (successes results).flatten.foldl dedupInsert acc := by
    induction results with
    | nil => intro acc; simp [successes]
    | cons r rs ih =>
      intro acc
      cases r with
      | ok products => simp [successes, List.filterMap_cons, ih, List.foldl_append]
      | error e => simp [successes, List.filterMap_cons, ih]
  exact h []

theorem crawl_eq_firstOccur (results : List (Except Unit (List BnBItem))) :
    crawl results = firstOccur (successes results).flatten := by
  rw [crawl_eq_foldl, foldl_dedupInsert_eq]
  have : ∀ l : List BnBItem, l.filter (fun y => !containsItem [] y) = l := by
    intro l; simp [containsItem]
  rw [this]
  rfl

theorem localDedup_eq_firstOccur (items : List BnBItem) :
    localDedup items = firstOccur items := by
  rw [localDedup, foldl_dedupInsert_eq]
  have : items.filter (fun y => !containsItem [] y) = items := by
    simp [containsItem]
  rw [this]
  rfl

theorem firstOccur_sublist (l : List BnBItem) : (firstOccur l).Sublist l := by
  suffices h : ∀ n (l : List BnBItem), l.length = n → (firstOccur l).Sublist l from
    h l.length l rfl
  intro n
  induction n using Nat.strong_induction_on with
  | _ n ih =>
    intro l hl
    cases l with
    | nil => simp [firstOccur]
    | cons x xs =>
      rw [firstOccur]
      apply List.Sublist.cons₂
      have hlen : (xs.filter (fun y => !itemEq x y)).length < n := by
        subst hl
        exact Nat.lt_succ_of_le (List.length_filter_le _ _)
      exact ((ih _ hlen _ rfl).trans (List.filter_sublist xs))

theorem firstOccur_pairwise (l : List BnBItem) :
    (firstOccur l).Pairwise (fun a b => itemEq a b = false) := by
  suffices h : ∀ n (l : List BnBItem),
      l.length = n → (firstOccur l).Pairwise (fun a b => itemEq a b = false) from
    h l.length l rfl
  intro n
  induction n using Nat.strong_induction_on with
  | _ n ih =>
    intro l hl
    cases l with
    | nil => simp [firstOccur]
    | cons x xs =>
      rw [firstOccur]
      have hlen : (xs.filter (fun y => !itemEq x y)).length < n := by
        subst hl
        exact Nat.lt_succ_of_le (List.length_filter_le _ _)
      refine List.Pairwise.cons ?_ (ih _ hlen _ rfl)
      intro b hb
      have hmem := (firstOccur_sublist _).mem hb
      have := List.of_mem_filter hmem
      simpa using this

/-- An anchor node of the landing page; only its optional `href` attribute is
read by the program. -/
structure Anchor where
  href : Option String
deriving DecidableEq, Repr

/-- `const ROOT_URL` (main.rs line 15). -/
def ROOT_URL : String := "https://www.bathandbodyworks.mx"

/-- Rust `link.contains("www")`: some suffix of `s` starts with `www`. -/
def hasWWW (s : String) : Bool :=
  s.toList.tails.any (fun t => "www".toList.isPrefixOf t)

/-- The pure pipeline of `get_unique_links` (main.rs lines 107-116) applied to
the already-unwrapped href values: collect into a `HashSet` (modelled by
`dedup`), drop every href containing `"www"`, and prepend the site root. -/
def uniqLinksOfHrefs (root : String) (hrefs : List String) : List String :=
  ((hrefs.dedup).filter (fun l => !hasWWW l)).map (fun l => root ++ l)

/-- The `.map(|node| node.attr("href").unwrap())` pass of `get_unique_links`:
read every anchor's href, a panic (modelled as `none`) as soon as one anchor
carries no href attribute. -/
def unwrapHrefs : List Anchor → Option (List String)
  | [] => some []
  | a :: rest =>
    match a.href with
    | none => none
    | some h => (unwrapHrefs rest).map (fun hs => h :: hs)

/-- `get_unique_links` generalized over the root prefix: unwrap each anchor's
`href` attribute, then run the pipeline. -/
def get_unique_links_root (root : String) (anchors : List Anchor) : Option (List String) :=
  (unwrapHrefs anchors).map (uniqLinksOfHrefs root)

/-- `get_unique_links` (main.rs lines 107-116), with the fixed `ROOT_URL`. -/
def get_unique_links (anchors : List Anchor) : Option (List String) :=
  get_unique_links_root ROOT_URL anchors

theorem string_append_cancel {root h₁ h₂ : String} (h : root ++ h₁ = root ++ h₂) : h₁ = h₂ := by
  apply String.ext
  have := congrArg String.data h
  simp only [String.data_append] at this
  exact List.append_cancel_left this

theorem mem_uniqLinksOfHrefs (root : String) (hrefs : List String) (u : String) :
    u ∈ uniqLinksOfHrefs root hrefs ↔
      ∃ h, h ∈ hrefs ∧ hasWWW h = false ∧ u = root ++ h := by
  simp only [uniqLinksOfHrefs, List.mem_map, List.mem_filter, List.mem_dedup]
  constructor
  · rintro ⟨h, ⟨hmem, hw⟩, rfl⟩
    exact ⟨h, hmem, by simpa using hw, rfl⟩
  · rintro ⟨h, hmem, hw, rfl⟩
    exact ⟨h, ⟨hmem, by simp [hw]⟩, rfl⟩

theorem uniqLinksOfHrefs_nodup (root : String) (hrefs : List String) :
    (uniqLinksOfHrefs root hrefs).Nodup := by
  apply List.Nodup.map
  · intro a b hab
    exact string_append_cancel hab
  · exact (List.nodup_dedup hrefs).filter _

theorem unwrapHrefs_eq_none (anchors : List Anchor)
    (h : ∃ a, a ∈ anchors ∧ a.href = none) :
    unwrapHrefs anchors = none := by
  induction anchors with
  | nil => simp at h
  | cons a rest ih =>
    obtain ⟨b, hb, hnone⟩ := h
    rcases List.mem_cons.mp hb with rfl | hmem
    · simp [unwrapHrefs, hnone]
    · cases ha : a.href with
      | none => simp [unwrapHrefs, ha]
      | some v => simp [unwrapHrefs, ha, ih ⟨b, hmem, hnone⟩]

theorem unwrapHrefs_eq_some (anchors : List Anchor)
    (h : ∀ a, a ∈ anchors → a.href ≠ none) :
    ∃ hrefs, unwrapHrefs anchors = some hrefs := by
  induction anchors with
  | nil => exact ⟨[], rfl⟩
  | cons a rest ih =>
    cases ha : a.href with
    | none => exact absurd ha (h a (List.mem_cons_self a rest))
    | some v =>
      obtain ⟨hrefs, hrest⟩ := ih (fun b hb => h b (List.mem_cons_of_mem a hb))
      exact ⟨v :: hrefs, by simp [unwrapHrefs, ha, hrest]⟩

/-- Value of a digit run, most significant first. -/
def digitsVal (cs : List Char) : ℕ :=
  cs.foldl (fun n c => 10 * n + (c.toNat - 48)) 0

/-- Unsigned part of the decimal grammar of `str::parse::<f32>`, over `ℚ`:
digits, an optional point, optional fraction digits, at least one digit in
all. Exponents and the special float spellings are omitted: no input of the
program's claims uses them, and the claims only distinguish parse success
from parse failure plus the exact decimal value. -/
def parseDecCore (cs : List Char) : Option ℚ :=
  let intPart := cs.takeWhile (fun c => c != '.')
  match cs.dropWhile (fun c => c != '.') with
  | [] =>
    if !intPart.isEmpty && intPart.all Char.isDigit then
      some (mkRat (digitsVal intPart) 1)
    else none
  | '.' :: frac =>
    if (!intPart.isEmpty || !frac.isEmpty) && intPart.all Char.isDigit
        && frac.all Char.isDigit then
      some (mkRat (digitsVal intPart * 10 ^ frac.length + digitsVal frac) (10 ^ frac.length))
    else none
  | _ => none

/-- `str::parse::<f32>` modelled over exact decimals: optional sign, then the
unsigned decimal grammar. -/
def parseDecimal (s : String) : Option ℚ :=
  match s.toList with
  | '-' :: rest => (parseDecCore rest).map (fun q => -q)
  | '+' :: rest => parseDecCore rest
  | cs => parseDecCore cs

/-- Rust `text.replace("$", "")`: every literal dollar sign removed. -/
def stripDollar (s : String) : String :=
  (s.toList.filter (fun c => c != '$')).asString

/-- A matched DOM element as the program reads it: its text content and its
optional `href` attribute. -/
structure Node where
  text : String
  href : Option String
deriving DecidableEq, Repr

/-- One product card, modelled at the DOM-query interface: each field is the
result of one `item.find(class.descendant(pred)).next()` query from
main.rs lines 118-179. -/
structure Card where
  captionLink : Option Node
  formLi : Option Node
  priceSpan : Option Node
  priceNew : Option Node
  discountP : Option Node
deriving DecidableEq, Repr

/-- `process_attribute` (main.rs lines 181-190): if the query found a node,
run the handler on it; otherwise leave the record untouched. -/
def process_attribute (found : Option Node) (handler : Node → BnBItem → BnBItem)
    (r : BnBItem) : BnBItem :=
  match found with
  | none => r
  | some n => handler n r

/-- `extract_discount` (main.rs lines 118-127): the text of the first `p`
under `.product-item__flags--discounts` becomes `discount`. -/
def extract_discount (c : Card) (r : BnBItem) : BnBItem :=
  process_attribute c.discountP (fun n r => { r with discount := n.text }) r

/-- `extract_price` (main.rs lines 129-142): strip `$` from the text of the
first `span` under `.product-item__price`, parse, and set `price` only on
parse success. -/
def extract_price (c : Card) (r : BnBItem) : BnBItem :=
  process_attribute c.priceSpan
    (fun n r =>
      match parseDecimal (stripDollar n.text) with
      | some v => { r with price := v }
      | none => r)
    r

/-- `extract_price_promo` (main.rs lines 144-157): same as `extract_price`
but for the first `.price-new` node, writing `price_promo`. -/
def extract_price_promo (c : Card) (r : BnBItem) : BnBItem :=
  process_attribute c.priceNew
    (fun n r =>
      match parseDecimal (stripDollar n.text) with
      | some v => { r with price_promo := v }
      | none => r)
    r

/-- `extract_item_type` (main.rs lines 158-167): the text of the first `li`
under `.product-item__form` becomes `item_type`. -/
def extract_item_type (c : Card) (r : BnBItem) : BnBItem :=
  process_attribute c.formLi (fun n r => { r with item_type := n.text }) r

/-- `extract_name_and_link` (main.rs lines 169-179): the first `a` under
`.product-item__caption` gives `name` (its text) and `link`
(`attr("href").unwrap()` — the unwrap panics, modelled as `none`, when the
found node has no href; when no node is found the record is untouched). -/
def extract_name_and_link (c : Card) (r : BnBItem) : Option BnBItem :=
  match c.captionLink with
  | none => some r
  | some n =>
    match n.href with
    | none => none
    | some h => some { r with name := n.text, link := h }

/-- `process_product` (main.rs lines 99-105): the five sub-extractions in
source order over one card, starting from the given record. -/
def process_product (c : Card) (r : BnBItem) : Option BnBItem :=
  (extract_name_and_link c r).map
    (fun r => extract_discount c (extract_price_promo c (extract_price c (extract_item_type c r))))

/-- The card loop of `process_link` (main.rs lines 87-95): extract each card
from a default record, dedup-push into the accumulator; `none` when some
card's extraction panics. -/
def processCards : List Card → List BnBItem → Option (List BnBItem)
  | [], acc => some acc
  | c :: cs, acc =>
    match process_product c BnBItem.zero with
    | none => none
    | some item => processCards cs (dedupInsert acc item)

/-- `process_link` (main.rs lines 81-97): a failed fetch is the task's
`error` value; an ok body yields the locally deduplicated record list. -/
def process_link (fetched : Except Unit (List Card)) : Option (Except Unit (List BnBItem)) :=
  match fetched with
  | .error e => some (.error e)
  | .ok cards => (processCards cards []).map Except.ok

/-- One step of the grouping loop of `main` (lines 67-73):
`grouped.entry(item.discount).or_insert(vec![]).push(item)` over an
association list in key-insertion order. -/
def addToGroup (groups : List (String × List BnBItem)) (item : BnBItem) :
    List (String × List BnBItem) :=
  if groups.any (fun g => g.1 == item.discount) then
    groups.map (fun g => if g.1 == item.discount then (g.1, g.2 ++ [item]) else g)
  else
    groups ++ [(item.discount, [item])]

/-- The grouping of `main` (lines 67-73): fold the final collection into
groups keyed by `discount`. -/
def groupByDiscount (items : List BnBItem) : List (String × List BnBItem) :=
  items.foldl addToGroup []

/-- The three facts maintained by the grouping loop: keys are distinct, every
group is the label-filter of the records seen so far, and the key set is
exactly the label set of the records seen so far. -/
def GroupInv (pre : List BnBItem) (groups : List (String × List BnBItem)) : Prop :=
  ((groups.map Prod.fst).Nodup)
  ∧ (∀ e ∈ groups, e.2 = pre.filter (fun r => r.discount == e.1))
  ∧ (∀ k, (∃ e ∈ groups, e.1 = k) ↔ ∃ r ∈ pre, r.discount = k)

theorem addToGroup_inv {pre : List BnBItem} {groups : List (String × List BnBItem)}
    (h : GroupInv pre groups) (item : BnBItem) :
    GroupInv (pre ++ [item]) (addToGroup groups item) := by
  obtain ⟨hnd, hent, hkeys⟩ := h
  have hupd : ∀ g : String × List BnBItem,
      (if g.1 == item.discount then (g.1, g.2 ++ [item]) else g).1 = g.1 := by
    intro g
    by_cases hg : g.1 = item.discount <;> simp [hg]
  rw [addToGroup]
  by_cases hany : groups.any (fun g => g.1 == item.discount)
  · rw [if_pos hany]
    have hkeep : (groups.map (fun g =>
        if g.1 == item.discount then (g.1, g.2 ++ [item]) else g)).map Prod.fst
        = groups.map Prod.fst := by
      rw [List.map_map]
      apply List.map_congr_left
      intro g _
      exact hupd g
    refine ⟨by rw [hkeep]; exact hnd, ?_, ?_⟩
    · intro e he
      obtain ⟨g, hg, rfl⟩ := List.mem_map.mp he
      by_cases hgk : g.1 = item.discount
      · have hif : (if g.1 == item.discount then (g.1, g.2 ++ [item]) else g)
            = (g.1, g.2 ++ [item]) := by simp [hgk]
        rw [hif, List.filter_append, ← hent g hg]
        simp [hgk]
      · have hif : (if g.1 == item.discount then (g.1, g.2 ++ [item]) else g) = g := by
          simp [hgk]
        have hdisc : (item.discount == g.1) = false := by
          simp [fun h => hgk ((beq_iff_eq.mp h).symm)]
          intro h
          exact absurd h.symm hgk
        rw [hif, List.filter_append, hent g hg]
        simp [hdisc]
    · intro k
      have hkeys' : (∃ e ∈ groups.map (fun g =>
          if g.1 == item.discount then (g.1, g.2 ++ [item]) else g), e.1 = k)
          ↔ ∃ e ∈ groups, e.1 = k := by
        constructor
        · rintro ⟨e, he, rfl⟩
          obtain ⟨g, hg, rfl⟩ := List.mem_map.mp he
          exact ⟨g, hg, (hupd g).symm⟩
        · rintro ⟨g, hg, rfl⟩
          exact ⟨_, List.mem_map_of_mem _ hg, hupd g⟩
      rw [hkeys', hkeys k]
      constructor
      · rintro ⟨r, hr, rfl⟩
        exact ⟨r, List.mem_append_left _ hr, rfl⟩
      · rintro ⟨r, hr, rfl⟩
        rcases List.mem_append.mp hr with hr | hr
        · exact ⟨r, hr, rfl⟩
        · have hri : r = item := by simpa using hr
          obtain ⟨g, hg, hgk⟩ := List.any_eq_true.mp hany
          exact (hkeys r.discount).mp ⟨g, hg, by rw [eq_of_beq hgk, hri]⟩
  · rw [if_neg hany]
    have hnotin : ∀ g ∈ groups, g.1 ≠ item.discount := by
      intro g hg hgk
      exact hany (List.any_eq_true.mpr ⟨g, hg, beq_iff_eq.mpr hgk⟩)
    have hnolabel : ∀ r ∈ pre, r.discount ≠ item.discount := by
      intro r hr hrk
      obtain ⟨g, hg, hgk⟩ := (hkeys item.discount).mpr ⟨r, hr, hrk⟩
      exact hnotin g hg hgk
    refine ⟨?_, ?_, ?_⟩
    · rw [List.map_append]
      simp only [List.map_cons, List.map_nil]
      rw [List.nodup_append]
      refine ⟨hnd, List.nodup_singleton _, ?_⟩
      intro k hk hk'
      have hki : k = item.discount := by simpa using hk'
      obtain ⟨g, hg, hgk⟩ := List.mem_map.mp hk
      exact hnotin g hg (by rw [hgk, hki])
    · intro e he
      rcases List.mem_append.mp he with he | he
      · have hdisc : (item.discount == e.1) = false := by
          simp only [beq_eq_false_iff_ne, ne_eq]
          intro hcontra
          exact hnotin e he hcontra.symm
        rw [List.filter_append, hent e he]
        simp [hdisc]
      · have hei : e = (item.discount, [item]) := by simpa using he
        rw [hei, List.filter_append]
        have h1 : pre.filter (fun r => r.discount == item.discount) = [] :=
          List.filter_eq_nil_iff.mpr (fun r hr => by simp [hnolabel r hr])
        simp [h1]
    · intro k
      constructor
      · rintro ⟨e, he, rfl⟩
        rcases List.mem_append.mp he with he | he
        · obtain ⟨r, hr, hrk⟩ := (hkeys e.1).mp ⟨e, he, rfl⟩
          exact ⟨r, List.mem_append_left _ hr, hrk⟩
        · have hei : e = (item.discount, [item]) := by simpa using he
          exact ⟨item, List.mem_append_right _ (by simp), by rw [hei]⟩
      · rintro ⟨r, hr, rfl⟩
        rcases List.mem_append.mp hr with hr | hr
        · obtain ⟨g, hg, hgk⟩ := (hkeys r.discount).mpr ⟨r, hr, rfl⟩
          exact ⟨g, List.mem_append_left _ hg, hgk⟩
        · have hri : r = item := by simpa using hr
          exact ⟨(item.discount, [item]), List.mem_append_right _ (by simp), by rw [hri]⟩

theorem foldl_addToGroup_inv (items : List BnBItem) :
    ∀ (pre : List BnBItem) (groups : List (String × List BnBItem)),
      GroupInv pre groups → GroupInv (pre ++ items) (items.foldl addToGroup groups) := by
  induction items with
  | nil => intro pre groups h; simpa using h
  | cons item rest ih =>
    intro pre groups h
    have := ih (pre ++ [item]) (addToGroup groups item) (addToGroup_inv h item)
    simpa using this

theorem groupByDiscount_inv (items : List BnBItem) : GroupInv items (groupByDiscount items) := by
  have h0 : GroupInv [] ([] : List (String × List BnBItem)) := by
    refine ⟨List.nodup_nil, by simp, ?_⟩
    intro k
    simp
  simpa using foldl_addToGroup_inv items [] [] h0

/-- Names for the five sub-extractions of `process_product`. -/
inductive Ext where
  | nameLink
  | itemType
  | price
  | pricePromo
  | discount
deriving DecidableEq, Repr

/-- The field-extraction step each `Ext` stands for, as a Kleisli arrow of
`Option` (only `nameLink` can fail). -/
def Ext.denote : Ext → Card → BnBItem → Option BnBItem
  | .nameLink, c, r => extract_name_and_link c r
  | .itemType, c, r => some (extract_item_type c r)
  | .price, c, r => some (extract_price c r)
  | .pricePromo, c, r => some (extract_price_promo c r)
  | .discount, c, r => some (extract_discount c r)

/-- Run a list of sub-extractions left to right over one card. -/
def runExts (l : List Ext) (c : Card) (r : BnBItem) : Option BnBItem :=
  l.foldl (fun ob e => ob.bind (Ext.denote e c)) (some r)

/-- The order `process_product` uses (main.rs lines 99-105). -/
def fixedOrder : List Ext := [.nameLink, .itemType, .price, .pricePromo, .discount]

theorem step_comm (c : Card) (ob : Option BnBItem) (x y : Ext) :
    (ob.bind (Ext.denote x c)).bind (Ext.denote y c)
      = (ob.bind (Ext.denote y c)).bind (Ext.denote x c) := by
  cases ob with
  | none => rfl
  | some r =>
    obtain ⟨cl, fl, ps, pn, dp⟩ := c
    rcases cl with _ | ⟨ct, _ | ch⟩ <;>
      rcases fl with _ | ⟨ft, fh⟩ <;>
      rcases ps with _ | ⟨pt, ph⟩ <;>
      rcases pn with _ | ⟨nt, nh⟩ <;>
      rcases dp with _ | ⟨dt, dh⟩ <;>
      cases x <;> cases y <;>
      simp only [Ext.denote, extract_name_and_link, extract_item_type, extract_price,
        extract_price_promo, extract_discount, process_attribute, Option.bind,
        Option.some_bind, Option.none_bind] <;>
      (repeat' split) <;>
      rfl

theorem runExts_perm (c : Card) (r : BnBItem) {l₁ l₂ : List Ext} (h : l₁.Perm l₂) :
    runExts l₁ c r = runExts l₂ c r := by
  haveI : RightCommutative (fun (ob : Option BnBItem) (e : Ext) => ob.bind (Ext.denote e c)) :=
    ⟨fun ob x y => step_comm c ob x y⟩
  exact h.foldl_eq (some r)

theorem runExts_fixedOrder (c : Card) (r : BnBItem) :
    runExts fixedOrder c r = process_product c r := by
  cases h : extract_name_and_link c r with
  | none => simp [runExts, fixedOrder, process_product, Ext.denote, h]
  | some r' => simp [runExts, fixedOrder, process_product, Ext.denote, h]

/-- Two sample records that agree on the dedup identity `(name, item_type)`
while differing in price, link and discount. -/
def exA : BnBItem :=
  { name := "Candle", item_type := "8oz", link := "/a", price := 10, price_promo := 0,
    discount := "" }

/-- Companion to `exA`: same `(name, item_type)`, different other fields. -/
def exB : BnBItem :=
  { name := "Candle", item_type := "8oz", link := "/b", price := 12, price_promo := 8,
    discount := "sale" }

/-- Grouping example records with discount labels `10% off`, ``, `10% off`. -/
def exG1 : BnBItem := { BnBItem.zero with name := "p1", discount := "10% off" }

/-- Second grouping example record, empty discount label. -/
def exG2 : BnBItem := { BnBItem.zero with name := "p2", discount := "" }

/-- Third grouping example record, same label as `exG1`. -/
def exG3 : BnBItem := { BnBItem.zero with name := "p3", discount := "10% off" }

/-- A card whose only matched node is a price span reading `$19.99`. -/
def cardPrice1999 : Card :=
  { captionLink := none, formLi := none,
    priceSpan := some { text := "$19.99", href := none }, priceNew := none, discountP := none }

/-- A card whose only matched node is a price span reading `N/A`. -/
def cardPriceNA : Card :=
  { captionLink := none, formLi := none,
    priceSpan := some { text := "N/A", href := none }, priceNew := none, discountP := none }

/-- A card whose caption link was found but carries no `href` attribute. -/
def cardNoHref : Card :=
  { captionLink := some { text := "Candle", href := none }, formLi := none,
    priceSpan := none, priceNew := none, discountP := none }

/-- A card on which every DOM query came back empty. -/
def cardEmpty : Card :=
  { captionLink := none, formLi := none, priceSpan := none, priceNew := none, discountP := none }

/-- A card on which every DOM query matched. -/
def cardFull : Card :=
  { captionLink := some { text := "Candle", href := some "/c" },
    formLi := some { text := "8oz", href := none },
    priceSpan := some { text := "$10", href := none },
    priceNew := some { text := "$8.50", href := none },
    discountP := some { text := "20% off", href := none } }

/-- C1: deduplication identity is `(name, item_type)`. The global merge
(`crawl`) returns exactly the first-occurrence filter, under that identity,
of the successful tasks' records in merge order — so a record equal by name
and category to an already-merged one is never added, whatever its price,
link, promo price or discount label — and the per-link local list
(`localDedup`) obeys the same first-occurrence rule before it enters the
global merge. -/
theorem claim_C1_dedup_identity :
    (∀ results : List (Except Unit (List BnBItem)),
      crawl results = firstOccur (successes results).flatten)
    ∧ (∀ items : List BnBItem, localDedup items = firstOccur items)
    ∧ (∀ (acc : List BnBItem) (x : BnBItem),
        containsItem acc x = true → dedupInsert acc x = acc) := by
  refine ⟨crawl_eq_firstOccur, localDedup_eq_firstOccur, ?_⟩
  intro acc x h
  simp [dedupInsert, h]

/-- Witness for C1 at a concrete input: `exB` agrees with `exA` on
`(name, item_type)`, so merging it into `[exA]` changes nothing. -/
theorem claim_C1_witness : dedupInsert [exA] exB = [exA] :=
  claim_C1_dedup_identity.2.2 [exA] exB (by decide)

/-- C2: partial-failure isolation. `crawl` is total; the failed tasks'
results are dropped silently, so the final collection equals the crawl of the
successful payloads alone (their deduplicated union), and an empty result
set yields the empty collection. -/
theorem claim_C2_partial_failure :
    (∀ results : List (Except Unit (List BnBItem)),
      crawl results = crawl ((successes results).map Except.ok)
      ∧ crawl results = (successes results).flatten.foldl dedupInsert [])
    ∧ crawl ([] : List (Except Unit (List BnBItem))) = [] := by
  constructor
  · intro results
    have hsucc : successes ((successes results).map Except.ok) = successes results := by
      induction successes results with
      | nil => rfl
      | cons l ls ih => simp [successes, List.filterMap_cons] at ih ⊢; exact ih
    constructor
    · rw [crawl_eq_foldl, crawl_eq_foldl, hsucc]
    · exact crawl_eq_foldl results
  · rfl

/-- C3: link discovery over the anchors' href values: dedup to a set, drop
every href containing the literal `www`, prefix the site root. The example
set is exactly as claimed, the output has no duplicates, and membership is
exactly `root ++ h` for some surviving href `h`. -/
theorem claim_C3_link_discovery :
    ((uniqLinksOfHrefs "https://site.test"
        ["/a", "http://www.other.com/x", "/b", "/a"]).toFinset
      = {"https://site.test/a", "https://site.test/b"})
    ∧ (∀ (root : String) (hrefs : List String),
        (uniqLinksOfHrefs root hrefs).Nodup
        ∧ ∀ u, u ∈ uniqLinksOfHrefs root hrefs
            ↔ ∃ h, h ∈ hrefs ∧ hasWWW h = false ∧ u = root ++ h) := by
  refine ⟨by decide, ?_⟩
  intro root hrefs
  exact ⟨uniqLinksOfHrefs_nodup root hrefs, fun u => mem_uniqLinksOfHrefs root hrefs u⟩

/-- C4: extraction never aborts on a missing node. Over any card whose
caption link, when found, carries an href (the sub-extractions may each miss
their node), extraction from the default record always emits a record, and
each field is its match's value when the node was found, its zero default
when not — in particular a missing price span leaves `price = 0`. -/
theorem claim_C4_default_fill :
    ∀ (cl : Option (String × String)) (fl ps pn dp : Option Node),
      process_product
        { captionLink := cl.map (fun p => { text := p.1, href := some p.2 }),
          formLi := fl, priceSpan := ps, priceNew := pn, discountP := dp }
        BnBItem.zero
      = some
        { name := (cl.map Prod.fst).getD "",
          item_type := (fl.map Node.text).getD "",
          link := (cl.map Prod.snd).getD "",
          price := (ps.bind (fun n => parseDecimal (stripDollar n.text))).getD 0,
          price_promo := (pn.bind (fun n => parseDecimal (stripDollar n.text))).getD 0,
          discount := (dp.map Node.text).getD "" } := by
  intro cl fl ps pn dp
  rcases cl with _ | ⟨nm, hr⟩ <;>
    rcases fl with _ | ⟨ft, fh⟩ <;>
    rcases ps with _ | ⟨pt, ph⟩ <;>
    rcases pn with _ | ⟨nt, nh⟩ <;>
    rcases dp with _ | ⟨dt, dh⟩ <;>
    simp only [process_product, extract_name_and_link, extract_item_type, extract_price,
      extract_price_promo, extract_discount, process_attribute, BnBItem.zero,
      Option.map_some, Option.map_none, Option.some_bind, Option.none_bind,
      Option.getD_some, Option.getD_none, Option.map] <;>
    (repeat' split) <;>
    simp_all

/-- C5: price parsing for both price fields: the node text has every `$`
stripped, then is parsed as a decimal; on success the field becomes the
parsed value, on failure it is left untouched (hence at its `0` default).
Concretely, `$19.99` yields `19.99` and `N/A` yields `0`. -/
theorem claim_C5_price_parsing :
    (∀ (r : BnBItem) (cl fl pn dp : Option Node) (t : String) (h : Option String),
      (extract_price
          { captionLink := cl, formLi := fl, priceSpan := some { text := t, href := h },
            priceNew := pn, discountP := dp } r).price
        = (parseDecimal (stripDollar t)).getD r.price
      ∧ (extract_price_promo
          { captionLink := cl, formLi := fl, priceSpan := pn,
            priceNew := some { text := t, href := h }, discountP := dp } r).price_promo
        = (parseDecimal (stripDollar t)).getD r.price_promo)
    ∧ stripDollar "$19.99" = "19.99"
    ∧ parseDecimal "19.99" = some ((1999 : ℚ) / 100)
    ∧ parseDecimal "N/A" = none
    ∧ (extract_price cardPrice1999 BnBItem.zero).price = (1999 : ℚ) / 100
    ∧ (extract_price cardPriceNA BnBItem.zero).price = 0 := by
  have h1999 : parseDecimal "19.99" = some (mkRat 1999 100) := by decide
  have hmk : (mkRat 1999 100 : ℚ) = (1999 : ℚ) / 100 := by norm_num
  refine ⟨?_, by decide, by rw [h1999, hmk], by decide, ?_, by decide⟩
  · intro r cl fl pn dp t h
    constructor
    · simp only [extract_price, process_attribute]
      cases parseDecimal (stripDollar t) <;> simp
    · simp only [extract_price_promo, process_attribute]
      cases parseDecimal (stripDollar t) <;> simp
  · have hstrip : stripDollar "$19.99" = "19.99" := by decide
    show (extract_price cardPrice1999 BnBItem.zero).price = (1999 : ℚ) / 100
    simp only [extract_price, cardPrice1999, process_attribute, hstrip, h1999, hmk]

/-- C6: the name+link sub-extraction fails hard exactly when a caption link
node was found whose href attribute is absent; that failure is exactly what
makes the whole record fail; and with no caption link node found at all both
fields stay default and no error is raised. -/
theorem claim_C6_href_hard_error :
    ∀ (c : Card) (r : BnBItem),
      (extract_name_and_link c r = none ↔ ∃ n, c.captionLink = some n ∧ n.href = none)
      ∧ (process_product c r = none ↔ extract_name_and_link c r = none)
      ∧ (c.captionLink = none → extract_name_and_link c r = some r) := by
  intro c r
  refine ⟨?_, ?_, ?_⟩
  · rcases hcl : c.captionLink with _ | ⟨nt, nh⟩
    · simp [extract_name_and_link, hcl]
    · rcases hh : nh with _ | h
      · simp [extract_name_and_link, hcl, hh]
      · simp [extract_name_and_link, hcl, hh]
  · cases h : extract_name_and_link c r <;> simp [process_product, h]
  · intro hcl
    simp [extract_name_and_link, hcl]

/-- Witness for C6 at concrete cards: a found caption link with no href
fails the record; a card with no caption link at all succeeds with the
record untouched. -/
theorem claim_C6_witness :
    extract_name_and_link cardNoHref BnBItem.zero = none
    ∧ extract_name_and_link cardEmpty BnBItem.zero = some BnBItem.zero := by
  constructor
  · exact (claim_C6_href_hard_error cardNoHref BnBItem.zero).1.mpr ⟨_, rfl, rfl⟩
  · exact (claim_C6_href_hard_error cardEmpty BnBItem.zero).2.2 rfl

/-- C7: link discovery errors as soon as some anchor lacks an href; when
every anchor carries one, the href reads cannot fail and discovery returns a
result. -/
theorem claim_C7_href_strict :
    ∀ anchors : List Anchor,
      ((∃ a, a ∈ anchors ∧ a.href = none) → get_unique_links anchors = none)
      ∧ ((∀ a, a ∈ anchors → a.href ≠ none) →
          ∃ out, get_unique_links anchors = some out) := by
  intro anchors
  constructor
  · intro h
    simp [get_unique_links, get_unique_links_root, unwrapHrefs_eq_none anchors h]
  · intro h
    obtain ⟨hrefs, hh⟩ := unwrapHrefs_eq_some anchors h
    exact ⟨uniqLinksOfHrefs ROOT_URL hrefs, by simp [get_unique_links, get_unique_links_root, hh]⟩

/-- Witness for C7 at concrete anchor lists: one anchor without an href
makes discovery fail; with every href present it returns a result. -/
theorem claim_C7_witness :
    get_unique_links [{ href := some "/a" }, { href := none }] = none
    ∧ ∃ out, get_unique_links [{ href := some "/a" }] = some out := by
  constructor
  · exact (claim_C7_href_strict _).1 ⟨{ href := none }, by decide, rfl⟩
  · exact (claim_C7_href_strict _).2 (by decide)

/-- C8: grouping by discount label is a pure function of the collection:
group keys are distinct, every group is exactly the in-order sublist of
records carrying its label (empty label included), the key set is exactly
the label set, and labels `10% off`, ``, `10% off` produce exactly the two
claimed groups with the relative order preserved. -/
theorem claim_C8_grouping :
    (∀ items : List BnBItem,
      ((groupByDiscount items).map Prod.fst).Nodup
      ∧ (∀ e, e ∈ groupByDiscount items →
          e.2 = items.filter (fun r => r.discount == e.1))
      ∧ (∀ k, (∃ e ∈ groupByDiscount items, e.1 = k) ↔ ∃ r ∈ items, r.discount = k))
    ∧ groupByDiscount [exG1, exG2, exG3] = [("10% off", [exG1, exG3]), ("", [exG2])] := by
  constructor
  · intro items
    obtain ⟨hnd, hent, hkeys⟩ := groupByDiscount_inv items
    exact ⟨hnd, hent, hkeys⟩
  · decide

/-- Witness for C8 at a concrete input: the `10% off` group of the example
collection is exactly the in-order filter of the records with that label. -/
theorem claim_C8_witness :
    ("10% off", [exG1, exG3]).2
      = [exG1, exG2, exG3].filter (fun r => r.discount == ("10% off", [exG1, exG3]).1) :=
  (claim_C8_grouping.1 [exG1, exG2, exG3]).2.1 ("10% off", [exG1, exG3]) (by decide)

/-- C9: the five sub-extractions are independent: each writes only its own
field(s), and running them in any permutation of the source order over any
card from any record gives the result of `process_product`. -/
theorem claim_C9_order_insensitive :
    ∀ (c : Card) (r : BnBItem),
      (∀ l : List Ext, l.Perm fixedOrder → runExts l c r = process_product c r)
      ∧ ((extract_item_type c r).name = r.name ∧ (extract_item_type c r).link = r.link
          ∧ (extract_item_type c r).price = r.price
          ∧ (extract_item_type c r).price_promo = r.price_promo
          ∧ (extract_item_type c r).discount = r.discount)
      ∧ ((extract_price c r).name = r.name ∧ (extract_price c r).item_type = r.item_type
          ∧ (extract_price c r).link = r.link
          ∧ (extract_price c r).price_promo = r.price_promo
          ∧ (extract_price c r).discount = r.discount)
      ∧ ((extract_price_promo c r).name = r.name
          ∧ (extract_price_promo c r).item_type = r.item_type
          ∧ (extract_price_promo c r).link = r.link
          ∧ (extract_price_promo c r).price = r.price
          ∧ (extract_price_promo c r).discount = r.discount)
      ∧ ((extract_discount c r).name = r.name ∧ (extract_discount c r).item_type = r.item_type
          ∧ (extract_discount c r).link = r.link ∧ (extract_discount c r).price = r.price
          ∧ (extract_discount c r).price_promo = r.price_promo)
      ∧ (∀ r', extract_name_and_link c r = some r' →
          r'.item_type = r.item_type ∧ r'.price = r.price
          ∧ r'.price_promo = r.price_promo ∧ r'.discount = r.discount) := by
  intro c r
  refine ⟨?_, ?_, ?_, ?_, ?_, ?_⟩
  · intro l hl
    rw [runExts_perm c r hl, runExts_fixedOrder]
  · simp only [extract_item_type, process_attribute]
    cases c.formLi <;> simp
  · simp only [extract_price, process_attribute]
    cases c.priceSpan with
    | none => simp
    | some n => rcases hv : parseDecimal (stripDollar n.text) with _ | v <;> simp [hv]
  · simp only [extract_price_promo, process_attribute]
    cases c.priceNew with
    | none => simp
    | some n => rcases hv : parseDecimal (stripDollar n.text) with _ | v <;> simp [hv]
  · simp only [extract_discount, process_attribute]
    cases c.discountP <;> simp
  · intro r' h
    rcases hcl : c.captionLink with _ | ⟨nt, nh⟩
    · simp [extract_name_and_link, hcl] at h
      simp [← h]
    · rcases hh : nh with _ | hv
      · simp [extract_name_and_link, hcl, hh] at h
      · simp [extract_name_and_link, hcl, hh] at h
        simp [← h]

/-- Witness for C9 at a concrete input: running the five sub-extractions in
reverse order over the fully-matched card equals the source-order result. -/
theorem claim_C9_witness :
    runExts [Ext.discount, Ext.pricePromo, Ext.price, Ext.itemType, Ext.nameLink]
        cardFull BnBItem.zero
      = process_product cardFull BnBItem.zero :=
  (claim_C9_order_insensitive cardFull BnBItem.zero).1 _ (by decide)

/-- C10: because the dedup identity compares only `(name, item_type)`, any
two fully-default records are equal, so the crawl's final collection holds
at most one record all of whose fields are defaults. -/
theorem claim_C10_default_collapse :
    ∀ results : List (Except Unit (List BnBItem)),
      ((crawl results).filter (fun r => r == BnBItem.zero)).length ≤ 1 := by
  intro results
  rw [crawl_eq_firstOccur]
  have hpw : ((firstOccur (successes results).flatten).filter
      (fun r => r == BnBItem.zero)).Pairwise (fun a b => itemEq a b = false) :=
    (firstOccur_pairwise _).sublist (List.filter_sublist _)
  cases hf : (firstOccur (successes results).flatten).filter (fun r => r == BnBItem.zero) with
  | nil => simp
  | cons a tail =>
    cases tail with
    | nil => simp
    | cons b t2 =>
      exfalso
      rw [hf] at hpw
      have hrel := (List.pairwise_cons.mp hpw).1 b (by simp)
      have ha : a ∈ (firstOccur (successes results).flatten).filter
          (fun r => r == BnBItem.zero) := by rw [hf]; simp
      have hb : b ∈ (firstOccur (successes results).flatten).filter
          (fun r => r == BnBItem.zero) := by rw [hf]; simp
      have ha' : a = BnBItem.zero := by simpa using (List.mem_filter.mp ha).2
      have hb' : b = BnBItem.zero := by simpa using (List.mem_filter.mp hb).2
      rw [ha', hb'] at hrel
      simp [itemEq] at hrel
